import Mathlib

/-!
Verification development for the polaris-tools load-testing harness.

The definitions below are a shallow embedding of the repository's code:

* `benchmarks/.../util/Mangler.scala` — deterministic entity naming, with an
  optional MD5 mangling mode (`maybeMangle`, backed by a full embedding of
  the MD5 digest over byte lists, machine words as `Nat` reduced mod 2^32);
* `benchmarks/.../simulations/ReadTreeDataset.scala` — the `asLongAs`
  work-claiming loop on the shared `AtomicInteger` counters (`phaseStep`,
  `phaseRun`) and the declared phase chain of `setUp`;
* the console's views API client (`encodeNamespace`, the four `viewsApi`
  URL builders) and the table-details query fallback (`tableQueryFn`).

Parts of the repository that the claims depend on but that are not in the
source tree (the `parameters` package, the Gatling sequencing engine, the
`actions` package) are modelled from the specification and marked as such
in their doc comments.
-/

/-! ## Bytes, hex formatting and UTF-8 (Scala `getBytes()` / `%02x`) -/

/-- Lowercase hexadecimal digit characters, as used by Scala's `"%02x"`. -/
def hexLowerDigits : List Char := "0123456789abcdef".toList

/-- The `k`-th lowercase hexadecimal digit. -/
def hexChar (k : Nat) : Char := hexLowerDigits.getD k '0'

/-- Formats each byte as two lowercase hex characters, mirroring
`.map("%02x".format(_)).mkString` on a digest array (Java formats a byte
with `%02x` as its unsigned value on two digits). -/
def hexOfBytes (bs : List Nat) : List Char :=
  bs.flatMap (fun b => [hexChar (b / 16 % 16), hexChar (b % 16)])

/-- UTF-8 encoding of a Unicode code point as a list of byte values. -/
def utf8Encode (n : Nat) : List Nat :=
  if n < 128 then [n]
  else if n < 2048 then [192 + n / 64, 128 + n % 64]
  else if n < 65536 then [224 + n / 4096, 128 + n / 64 % 64, 128 + n % 64]
  else [240 + n / 262144, 128 + n / 4096 % 64, 128 + n / 64 % 64, 128 + n % 64]

/-- Byte content of a string, mirroring Scala's `String.getBytes()` with the
default UTF-8 charset. -/
def strBytes (s : String) : List Nat := s.data.flatMap (fun c => utf8Encode c.toNat)

/-! ## MD5 (`java.security.MessageDigest.getInstance("MD5")`), RFC 1321.

Machine words are `Nat` values kept below `2^32 = 4294967296` by explicit
reduction. -/

/-- 32-bit complement of a word. -/
def not32 (x : Nat) : Nat := 4294967295 - x % 4294967296

/-- Left rotation of a 32-bit word by `n` places. -/
def rotl32 (x n : Nat) : Nat :=
  ((x % 4294967296) * 2 ^ n + x % 4294967296 / 2 ^ (32 - n)) % 4294967296

/-- The MD5 sine-derived round constants `K[0..63]`. -/
def md5K : List Nat :=
  [0xd76aa478, 0xe8c7b756, 0x242070db, 0xc1bdceee,
   0xf57c0faf, 0x4787c62a, 0xa8304613, 0xfd469501,
   0x698098d8, 0x8b44f7af, 0xffff5bb1, 0x895cd7be,
   0x6b901122, 0xfd987193, 0xa679438e, 0x49b40821,
   0xf61e2562, 0xc040b340, 0x265e5a51, 0xe9b6c7aa,
   0xd62f105d, 0x02441453, 0xd8a1e681, 0xe7d3fbc8,
   0x21e1cde6, 0xc33707d6, 0xf4d50d87, 0x455a14ed,
   0xa9e3e905, 0xfcefa3f8, 0x676f02d9, 0x8d2a4c8a,
   0xfffa3942, 0x8771f681, 0x6d9d6122, 0xfde5380c,
   0xa4beea44, 0x4bdecfa9, 0xf6bb4b60, 0xbebfbc70,
   0x289b7ec6, 0xeaa127fa, 0xd4ef3085, 0x04881d05,
   0xd9d4d039, 0xe6db99e5, 0x1fa27cf8, 0xc4ac5665,
   0xf4292244, 0x432aff97, 0xab9423a7, 0xfc93a039,
   0x655b59c3, 0x8f0ccc92, 0xffeff47d, 0x85845dd1,
   0x6fa87e4f, 0xfe2ce6e0, 0xa3014314, 0x4e0811a1,
   0xf7537e82, 0xbd3af235, 0x2ad7d2bb, 0xeb86d391]

/-- The MD5 per-round left-rotation amounts `s[0..63]`. -/
def md5S : List Nat :=
  [7, 12, 17, 22, 7, 12, 17, 22, 7, 12, 17, 22, 7, 12, 17, 22,
   5, 9, 14, 20, 5, 9, 14, 20, 5, 9, 14, 20, 5, 9, 14, 20,
   4, 11, 16, 23, 4, 11, 16, 23, 4, 11, 16, 23, 4, 11, 16, 23,
   6, 10, 15, 21, 6, 10, 15, 21, 6, 10, 15, 21, 6, 10, 15, 21]

/-- The MD5 round mixing function (F, G, H, I by round quarter). -/
def md5F (i b c d : Nat) : Nat :=
  if i < 16 then (b &&& c) ||| (not32 b &&& d)
  else if i < 32 then (d &&& b) ||| (not32 d &&& c)
  else if i < 48 then b ^^^ c ^^^ d
  else c ^^^ (b ||| not32 d)

/-- The MD5 message-word index used in round `i`. -/
def md5G (i : Nat) : Nat :=
  if i < 16 then i
  else if i < 32 then (5 * i + 1) % 16
  else if i < 48 then (3 * i + 5) % 16
  else (7 * i) % 16

/-- Little-endian 32-bit word `g` of a 64-byte chunk. -/
def md5WordAt (chunk : List Nat) (g : Nat) : Nat :=
  chunk.getD (4 * g) 0 + 256 * chunk.getD (4 * g + 1) 0 +
    65536 * chunk.getD (4 * g + 2) 0 + 16777216 * chunk.getD (4 * g + 3) 0

/-- One MD5 round on the state `(A, B, C, D)`. -/
def md5RoundStep (chunk : List Nat) (st : Nat × Nat × Nat × Nat) (i : Nat) :
    Nat × Nat × Nat × Nat :=
  let a := st.1
  let b := st.2.1
  let c := st.2.2.1
  let d := st.2.2.2
  let f := (md5F i b c d + a + md5K.getD i 0 + md5WordAt chunk (md5G i)) % 4294967296
  (d, (b + rotl32 f (md5S.getD i 0)) % 4294967296, b, c)

/-- Processes one 64-byte chunk: 64 rounds, then adds the result into the
running state, all mod 2^32. -/
def md5ProcessChunk (st : Nat × Nat × Nat × Nat) (chunk : List Nat) :
    Nat × Nat × Nat × Nat :=
  let r := (List.range 64).foldl (md5RoundStep chunk) st
  ((st.1 + r.1) % 4294967296, (st.2.1 + r.2.1) % 4294967296,
   (st.2.2.1 + r.2.2.1) % 4294967296, (st.2.2.2 + r.2.2.2) % 4294967296)

/-- MD5 padding: a `0x80` byte, zeros up to 56 mod 64, then the bit length
as a 64-bit little-endian quantity. -/
def md5Pad (msg : List Nat) : List Nat :=
  msg ++ [128] ++ List.replicate ((119 - msg.length % 64) % 64) 0 ++
    (List.range 8).map (fun i => 8 * msg.length / 2 ^ (8 * i) % 256)

/-- The MD5 initial state. -/
def md5InitState : Nat × Nat × Nat × Nat := (0x67452301, 0xefcdab89, 0x98badcfe, 0x10325476)

/-- Runs MD5 over a byte list, returning the final `(A, B, C, D)` state. -/
def md5Core (msg : List Nat) : Nat × Nat × Nat × Nat :=
  let p := md5Pad msg
  (List.range (p.length / 64)).foldl
    (fun st i => md5ProcessChunk st ((p.drop (64 * i)).take 64)) md5InitState

/-- Serializes a 32-bit word to four little-endian bytes. -/
def toLEBytes (w : Nat) : List Nat := [w % 256, w / 256 % 256, w / 65536 % 256, w / 16777216 % 256]

/-- The 16-byte MD5 digest of a byte list. -/
def md5Bytes (msg : List Nat) : List Nat :=
  toLEBytes (md5Core msg).1 ++ toLEBytes (md5Core msg).2.1 ++
    toLEBytes (md5Core msg).2.2.1 ++ toLEBytes (md5Core msg).2.2.2

/-- The 32-character lowercase hex rendering of the MD5 digest, mirroring
`MD5.digest(bytes).map("%02x".format(_)).mkString`. -/
def md5Hex (msg : List Nat) : String := String.mk (hexOfBytes (md5Bytes msg))

/-! ## Mangler (`util/Mangler.scala`) -/

/-- Embedding of `Mangler.maybeMangle`: when mangling is enabled, the MD5
digest of `prefix + ordinal` rendered as lowercase hex; otherwise the
plain `s"$prefix$ordinal"` name. Ordinals are the non-negative `Int`
values the benchmark feeds, embedded as `Nat`. -/
def maybeMangle (enabled : Bool) (pfx : String) (ordinal : Nat) : String :=
  if enabled then md5Hex (strBytes (pfx ++ toString ordinal))
  else pfx ++ toString ordinal

/-- Embedding of `Mangler.maybeMangleNs`. -/
def maybeMangleNs (enabled : Bool) (ordinal : Nat) : String := maybeMangle enabled "NS_" ordinal

/-- Embedding of `Mangler.maybeMangleTable`. -/
def maybeMangleTable (enabled : Bool) (ordinal : Nat) : String := maybeMangle enabled "T_" ordinal

/-- Embedding of `Mangler.maybeMangleView`. -/
def maybeMangleView (enabled : Bool) (ordinal : Nat) : String := maybeMangle enabled "V_" ordinal

/-- Modelled from the spec: catalog naming lives in the `actions` package,
which is not in the source tree; per the spec, "catalogs use a separate
caller-supplied prefix, not mangled" — the catalog name is the supplied
prefix followed by the decimal ordinal, with no dependence on the
mangling flag. -/
def catalogName (pfx : String) (ordinal : Nat) : String := pfx ++ toString ordinal

set_option maxRecDepth 40000

/-- Sanity anchor: the embedded MD5 agrees with the RFC 1321 test vector
for the empty message. -/
theorem md5Hex_empty_vector : md5Hex (strBytes "") = "d41d8cd98f00b204e9800998ecf8427e" := by
  decide

/-- Sanity anchor: the embedded MD5 agrees with the RFC 1321 test vector
for `"abc"`. -/
theorem md5Hex_abc_vector : md5Hex (strBytes "abc") = "900150983cd24fb0d6963f7d28e17f72" := by
  decide

/-! ## Shape of the mangled output -/

theorem hexOfBytes_length (bs : List Nat) : (hexOfBytes bs).length = 2 * bs.length := by
  induction bs with
  | nil => rfl
  | cons b bs ih => simp [hexOfBytes] at ih ⊢; omega

theorem hexChar_mem_of_lt (k : Nat) (hk : k < 16) : hexChar k ∈ hexLowerDigits := by
  interval_cases k <;> decide

theorem mem_hexOfBytes (c : Char) (bs : List Nat) (hc : c ∈ hexOfBytes bs) :
    c ∈ hexLowerDigits := by
  rw [hexOfBytes, List.mem_flatMap] at hc
  obtain ⟨b, -, hb⟩ := hc
  simp only [List.mem_cons, List.not_mem_nil, or_false] at hb
  rcases hb with h | h <;>
    exact h ▸ hexChar_mem_of_lt _ (Nat.mod_lt _ (by omega))

theorem md5Bytes_length (msg : List Nat) : (md5Bytes msg).length = 16 := by
  simp [md5Bytes, toLEBytes]

/-! ## Shared digest engine (`val MD5: MessageDigest`) under interleaving.

`java.security.MessageDigest` is a stateful engine: `update` appends to an
internal buffer, `digest()` hashes the buffer and resets it, and
`digest(input)` is `update(input)` followed by `digest()` — two separate
mutations of the engine, so a concurrent caller's operation can land in
between. `Mangler` stores one such engine in the field `val MD5` and
reuses it for every `maybeMangle` call. -/

/-- One operation on the shared digest engine, tagged with the id of the
worker performing it. -/
inductive MDOp : Type
  | update (caller : Nat) (input : List Nat)
  | final (caller : Nat)
deriving DecidableEq

/-- Runs a linearized sequence of engine operations against the single
shared buffer, returning each worker's digest output in completion order.
This models `java.security.MessageDigest` semantics: `update` appends to
the internal buffer, `final` hashes the buffer and resets it. -/
def mdRun (buf : List Nat) (ops : List MDOp) : List (Nat × String) :=
  match ops with
  | [] => []
  | MDOp.update _ bs :: rest => mdRun (buf ++ bs) rest
  | MDOp.final who :: rest => (who, md5Hex buf) :: mdRun [] rest

/-- C4: In mangled mode, for every kind prefix in {NS_, T_, V_} and every
ordinal, `maybeMangle` is a deterministic function of its inputs — two
calls with identical inputs yield identical output — and the output is
always exactly 32 lowercase hexadecimal characters. -/
theorem mangled_name_deterministic_32_lowercase_hex (p : String) (n : Nat)
    (_hp : p ∈ ["NS_", "T_", "V_"]) :
    maybeMangle true p n = maybeMangle true p n ∧
    (maybeMangle true p n).length = 32 ∧
    ∀ c ∈ (maybeMangle true p n).data, c ∈ hexLowerDigits := by
  refine ⟨rfl, ?_, ?_⟩
  · rw [show maybeMangle true p n = md5Hex (strBytes (p ++ toString n)) from rfl, md5Hex]
    show (hexOfBytes (md5Bytes (strBytes (p ++ toString n)))).length = 32
    rw [hexOfBytes_length, md5Bytes_length]
  · intro c hc
    rw [show maybeMangle true p n = md5Hex (strBytes (p ++ toString n)) from rfl] at hc
    exact mem_hexOfBytes c _ hc

/-- Witness for C4 at the concrete input `("NS_", 0)`. -/
theorem mangled_name_deterministic_32_lowercase_hex_witness :
    (maybeMangle true "NS_" 0).length = 32 :=
  (mangled_name_deterministic_32_lowercase_hex "NS_" 0 (by decide)).2.1

/-- C8: In default (unmangled) mode, the namespace, table and view names
are `NS_`, `T_`, `V_` followed by the decimal digits of the ordinal, and
the catalog name is the caller-supplied prefix followed by the ordinal,
with no mangling applied to it. -/
theorem unmangled_names_prefix_decimal (n : Nat) (p : String) :
    maybeMangleNs false n = "NS_" ++ toString n ∧
    maybeMangleTable false n = "T_" ++ toString n ∧
    maybeMangleView false n = "V_" ++ toString n ∧
    catalogName p n = p ++ toString n ∧
    maybeMangleNs false 17 = "NS_17" :=
  ⟨rfl, rfl, rfl, rfl, by decide⟩

/-- C7: the Mangler's single shared `MessageDigest` engine (field
`val MD5`) is stateful and reused across calls, so it is not safe for
concurrent invocation. At the failing interleaving — worker 1 mangling
`("NS_", 0)`, worker 2 mangling `("T_", 1)`, with worker 2's `update`
landing between worker 1's `update` and its finalization — the two calls
return the digest of the concatenated buffer and the digest of the empty
buffer, neither of which is the deterministic mangled name of its input;
the same two calls executed sequentially do return the required names. -/
theorem mangler_shared_digest_race :
    mdRun [] [MDOp.update 1 (strBytes "NS_0"), MDOp.update 2 (strBytes "T_1"),
        MDOp.final 1, MDOp.final 2] =
      [(1, md5Hex (strBytes "NS_0T_1")), (2, md5Hex (strBytes ""))] ∧
    md5Hex (strBytes "NS_0T_1") ≠ maybeMangle true "NS_" 0 ∧
    md5Hex (strBytes "") ≠ maybeMangle true "T_" 1 ∧
    mdRun [] [MDOp.update 1 (strBytes "NS_0"), MDOp.final 1,
        MDOp.update 2 (strBytes "T_1"), MDOp.final 2] =
      [(1, maybeMangle true "NS_" 0), (2, maybeMangle true "T_" 1)] := by
  decide

/-! ## Phase work-claiming loop (`ReadTreeDataset.scala`).

Each verification scenario is
`asLongAs(session => counter.getAndIncrement() < target && session.contains("accessToken"))(body)`
over a shared `AtomicInteger` starting at 0. Atomicity of
`getAndIncrement` means the guard evaluations of the `w` concurrent
workers linearize into one sequence; we model a run as that linearized
schedule of worker ids. A worker whose guard returns a value below the
target processes one descriptor (identified with the returned ordinal,
per the spec's increment-and-compare claiming); otherwise it exits the
loop. The access token is modelled as present throughout (the claims
concern a phase that runs to completion, not the credential-failure
abort). -/

/-- Shared state of one verification phase: the `AtomicInteger` value, the
running/exited status of each worker, and the ordinals processed so far
in claim order. -/
structure PhaseState where
  counter : Nat
  statuses : List Bool
  visited : List Nat
deriving DecidableEq, Repr

/-- Initial phase state for `w` workers: counter 0, everyone running. -/
def phaseInit (w : Nat) : PhaseState :=
  { counter := 0, statuses := List.replicate w true, visited := [] }

/-- One guard evaluation by worker `wid`: `getAndIncrement` returns the old
counter; if it is below the target the worker processes the descriptor
with that ordinal and loops, otherwise it exits. A worker that has
already exited takes no step. -/
def phaseStep (target : Nat) (s : PhaseState) (wid : Nat) : PhaseState :=
  if s.statuses.getD wid false then
    if s.counter < target then
      { counter := s.counter + 1, statuses := s.statuses, visited := s.visited ++ [s.counter] }
    else
      { counter := s.counter + 1, statuses := s.statuses.set wid false, visited := s.visited }
  else s

/-- Runs a linearized schedule of guard evaluations. -/
def phaseRun (target : Nat) (s : PhaseState) (sched : List Nat) : PhaseState :=
  sched.foldl (phaseStep target) s

/-- A phase is finished when every worker has exited its loop. -/
def PhaseState.terminal (s : PhaseState) : Bool := s.statuses.all (fun b => !b)

/-- The run invariant: worker count is stable, the visited list is exactly
the ordinals below `min counter target` in order, the counter counts one
unit per processed descriptor plus one per exited worker, and a worker
only exits once the counter has reached the target. -/
def PhaseInv (target w : Nat) (s : PhaseState) : Prop :=
  s.statuses.length = w ∧
  s.visited = List.range (min s.counter target) ∧
  s.counter = s.visited.length + s.statuses.count false ∧
  (false ∈ s.statuses → target ≤ s.counter)

theorem count_false_set_of_getD (l : List Bool) (i : Nat) (h : l.getD i false = true) :
    (l.set i false).count false = l.count false + 1 := by
  induction l generalizing i with
  | nil => simp at h
  | cons b bs ih =>
    cases i with
    | zero =>
      rw [List.getD_cons_zero] at h
      subst h
      simp [List.count_cons]
    | succ i =>
      rw [List.getD_cons_succ] at h
      simp only [List.set_cons_succ, List.count_cons, ih i h]
      omega

theorem count_false_of_all_false (l : List Bool) (h : ∀ b ∈ l, b = false) :
    l.count false = l.length := by
  induction l with
  | nil => rfl
  | cons b bs ih =>
    have hb := h b (List.mem_cons_self b bs)
    subst hb
    simp [List.count_cons, ih fun x hx => h x (List.mem_cons_of_mem _ hx)]

theorem phaseInv_init (target w : Nat) : PhaseInv target w (phaseInit w) := by
  refine ⟨List.length_replicate w true, by simp [phaseInit], ?_, ?_⟩
  · simp [phaseInit, List.count_replicate]
  · intro hmem
    simp [phaseInit, List.mem_replicate] at hmem

theorem phaseInv_step (target w : Nat) (s : PhaseState) (wid : Nat)
    (h : PhaseInv target w s) : PhaseInv target w (phaseStep target s wid) := by
  obtain ⟨hlen, hvis, hcnt, hle⟩ := h
  unfold phaseStep
  by_cases hg : s.statuses.getD wid false = true
  · rw [if_pos hg]
    by_cases hc : s.counter < target
    · rw [if_pos hc]
      refine ⟨hlen, ?_, ?_, ?_⟩
      · have h1 : min s.counter target = s.counter := Nat.min_eq_left (Nat.le_of_lt hc)
        have h2 : min (s.counter + 1) target = s.counter + 1 := Nat.min_eq_left hc
        simp only [h2, hvis, h1, List.range_succ]
      · simp only [List.length_append, List.length_singleton]
        omega
      · intro hmem
        exact Nat.le_succ_of_le (hle hmem)
    · rw [if_neg hc]
      have htc : target ≤ s.counter := Nat.le_of_not_lt hc
      refine ⟨by rw [List.length_set]; exact hlen, ?_, ?_, ?_⟩
      · have h1 : min s.counter target = target := Nat.min_eq_right htc
        have h2 : min (s.counter + 1) target = target := Nat.min_eq_right (Nat.le_succ_of_le htc)
        rw [h2, hvis, h1]
      · show s.counter + 1 = s.visited.length + (s.statuses.set wid false).count false
        rw [count_false_set_of_getD s.statuses wid hg]
        omega
      · intro _
        exact Nat.le_succ_of_le htc
  · rw [if_neg hg]
    exact ⟨hlen, hvis, hcnt, hle⟩

theorem phaseInv_run (target w : Nat) (sched : List Nat) (s : PhaseState)
    (h : PhaseInv target w s) : PhaseInv target w (phaseRun target s sched) := by
  induction sched generalizing s with
  | nil => exact h
  | cons a rest ih => exact ih (phaseStep target s a) (phaseInv_step target w s a h)

/-- Shared consequence of the invariant at a terminal state: a completed
phase with at least one worker has claimed exactly the ordinals
`0..target-1` in order, and the counter has overshot to `target + w`. -/
theorem phaseRun_complete_spec (target w : Nat) (sched : List Nat) (hw : 1 ≤ w)
    (hterm : (phaseRun target (phaseInit w) sched).terminal = true) :
    (phaseRun target (phaseInit w) sched).visited = List.range target ∧
    (phaseRun target (phaseInit w) sched).counter = target + w := by
  obtain ⟨hlen, hvis, hcnt, hle⟩ :=
    phaseInv_run target w sched (phaseInit w) (phaseInv_init target w)
  set s := phaseRun target (phaseInit w) sched with hs
  have hall : ∀ b ∈ s.statuses, b = false := by
    intro b hb
    have := List.all_eq_true.mp hterm b hb
    simpa using this
  have hfalse : false ∈ s.statuses := by
    have hne : s.statuses ≠ [] := by
      intro h0
      rw [h0] at hlen
      simp at hlen
      omega
    obtain ⟨b, hb⟩ := List.exists_mem_of_ne_nil s.statuses hne
    have hb2 := hall b hb
    rwa [hb2] at hb
  have htc : target ≤ s.counter := hle hfalse
  have hmin : min s.counter target = target := Nat.min_eq_right htc
  have hv : s.visited = List.range target := by rw [hvis, hmin]
  refine ⟨hv, ?_⟩
  have hcf : s.statuses.count false = w := by
    rw [count_false_of_all_false s.statuses hall, hlen]
  rw [hcnt, hv, hcf, List.length_range]

theorem count_range (i n : Nat) : (List.range n).count i = if i < n then 1 else 0 := by
  induction n with
  | zero => simp
  | succ n ih =>
    rw [List.range_succ, List.count_append, ih, List.count_singleton' i n]
    split_ifs <;> omega

/-- C1: for every entity count `k` and worker count `w ≥ 1`, any complete
run of an enumeration-mode verification phase — any linearization of the
workers' atomic increment-and-compare claims after which every worker has
exited — visits the ordinals `0..k-1` each exactly once: no ordinal is
skipped and none is double-counted, regardless of `w` and of the
interleaving. -/
theorem phase_enumeration_exactly_once (k w : Nat) (sched : List Nat)
    (hw : 1 ≤ w) (hterm : (phaseRun k (phaseInit w) sched).terminal = true) :
    (phaseRun k (phaseInit w) sched).visited = List.range k ∧
    ∀ i : Nat, (phaseRun k (phaseInit w) sched).visited.count i =
      if i < k then 1 else 0 := by
  obtain ⟨hv, -⟩ := phaseRun_complete_spec k w sched hw hterm
  refine ⟨hv, ?_⟩
  intro i
  rw [hv]
  exact count_range i k

/-- Witness for C1: three entities, two workers, a concrete interleaving
in which worker 0 claims twice before worker 1 returns. -/
theorem phase_enumeration_exactly_once_witness :
    (phaseRun 3 (phaseInit 2) [0, 1, 0, 0, 1]).visited = List.range 3 :=
  (phase_enumeration_exactly_once 3 2 [0, 1, 0, 0, 1] (by decide) (by decide)).1

/-- C6 counterexample: the claim says each worker increments the counter
after successfully processing one descriptor, exactly once per processed
descriptor — that would force the final counter to equal the number of
processed descriptors. In the code the increment is the loop guard
(`getAndIncrement` runs before the body, and once more on the failed
check that exits the loop): with target 1 and a single worker the phase
completes having processed 1 descriptor while the counter reads 2. -/
theorem phase_counter_per_processed_counterexample :
    (phaseRun 1 (phaseInit 1) [0, 0]).terminal = true ∧
    (phaseRun 1 (phaseInit 1) [0, 0]).visited.length = 1 ∧
    (phaseRun 1 (phaseInit 1) [0, 0]).counter = 2 ∧
    (phaseRun 1 (phaseInit 1) [0, 0]).counter ≠
      (phaseRun 1 (phaseInit 1) [0, 0]).visited.length := by
  decide

theorem phaseStep_counter_le (target : Nat) (s : PhaseState) (wid : Nat) :
    s.counter ≤ (phaseStep target s wid).counter := by
  unfold phaseStep
  split_ifs <;> simp

theorem phaseRun_counter_le (target : Nat) (sched : List Nat) (s : PhaseState) :
    s.counter ≤ (phaseRun target s sched).counter := by
  induction sched generalizing s with
  | nil => exact Nat.le_refl _
  | cons a rest ih =>
    exact Nat.le_trans (phaseStep_counter_le target s a) (ih (phaseStep target s a))

/-- C6 (amended): the phase counter is mutated only by unit atomic
increments — a guard evaluation leaves it unchanged (exited worker) or
adds exactly one — so its value is monotonically non-decreasing over the
run; but the increment happens when the worker evaluates the loop guard,
before claiming a descriptor, not after processing one: in a completed
phase the counter reads `k + w` — one unit per processed descriptor plus
one extra exit-check increment per worker — not the number of processed
descriptors. -/
theorem phase_counter_monotone_guard_increment (k w wid : Nat) (s : PhaseState)
    (sched extra : List Nat) (hw : 1 ≤ w)
    (hterm : (phaseRun k (phaseInit w) sched).terminal = true) :
    ((phaseStep k s wid).counter = s.counter ∨
      (phaseStep k s wid).counter = s.counter + 1) ∧
    (phaseRun k (phaseInit w) sched).counter ≤
      (phaseRun k (phaseInit w) (sched ++ extra)).counter ∧
    (phaseRun k (phaseInit w) sched).visited.length = k ∧
    (phaseRun k (phaseInit w) sched).counter = k + w := by
  obtain ⟨hv, hc⟩ := phaseRun_complete_spec k w sched hw hterm
  refine ⟨?_, ?_, ?_, hc⟩
  · unfold phaseStep
    split_ifs <;> simp
  · have happ : phaseRun k (phaseInit w) (sched ++ extra) =
        phaseRun k (phaseRun k (phaseInit w) sched) extra := by
      simp [phaseRun, List.foldl_append]
    rw [happ]
    exact phaseRun_counter_le k extra _
  · rw [hv, List.length_range]

/-- Witness for C6 (amended) at the concrete completed run of the
counterexample: target 1, one worker, counter ends at 1 + 1. -/
theorem phase_counter_monotone_guard_increment_witness :
    (phaseRun 1 (phaseInit 1) [0, 0]).counter = 1 + 1 :=
  (phase_counter_monotone_guard_increment 1 1 0 (phaseInit 1) [0, 0] []
    (by decide) (by decide)).2.2.2

/-! ## Topology Calculator (`dp.nAryTree` / `dp.numTables` / `dp.numViews`) -/

/-- Modelled from the spec: `dp.nAryTree.numberOfNodes` (used at
`ReadTreeDataset.scala` line 52) comes from the `parameters` package,
which is not in the source tree. Per the spec the dataset is a complete
N-ary tree with `D` levels, so its node count is the sum of `N^i` over
the `D` levels; §4.1 gives the closed forms `(N^D - 1)/(N - 1)` for
`N > 1` and `D` for `N = 1`. -/
def NAryTree.numberOfNodes (n d : Nat) : Nat := ∑ i ∈ Finset.range d, n ^ i

theorem geom_sum_mul_pred (n d : Nat) (hn : 1 ≤ n) :
    (n - 1) * NAryTree.numberOfNodes n d = n ^ d - 1 := by
  induction d with
  | zero => simp [NAryTree.numberOfNodes]
  | succ d ih =>
    have hp : 0 < n ^ d := pow_pos (by omega) d
    have hs : NAryTree.numberOfNodes n (d + 1) = NAryTree.numberOfNodes n d + n ^ d :=
      Finset.sum_range_succ _ d
    rw [hs, Nat.mul_add, ih]
    have h2 : (n - 1) * n ^ d = n * n ^ d - n ^ d := by rw [Nat.sub_mul, one_mul]
    have h4 : n * n ^ d = n ^ (d + 1) := (pow_succ' n d).symm
    have h3 : n ^ d ≤ n ^ (d + 1) := Nat.pow_le_pow_right (by omega) (by omega)
    rw [h2, h4]
    omega

/-- C2: the Topology Calculator's namespace count equals
`(N^D - 1)/(N - 1)` for `N > 1` and `D` for `N = 1`, with the spec's
examples `N=2, D=3 ⇒ 7`, `N=10, D=2 ⇒ 11`, `N=1, D=1000 ⇒ 1000`. -/
theorem totalNamespaces_closed_form (N D : Nat) (hN : 1 ≤ N) (_hD : 1 ≤ D) :
    (1 < N → NAryTree.numberOfNodes N D = (N ^ D - 1) / (N - 1)) ∧
    (N = 1 → NAryTree.numberOfNodes N D = D) ∧
    NAryTree.numberOfNodes 2 3 = 7 ∧
    NAryTree.numberOfNodes 10 2 = 11 ∧
    NAryTree.numberOfNodes 1 1000 = 1000 := by
  refine ⟨?_, ?_, ?_, ?_, ?_⟩
  · intro h1
    have hmul := geom_sum_mul_pred N D hN
    have hpos : 0 < N - 1 := by omega
    rw [← hmul, Nat.mul_div_cancel_left _ hpos]
  · intro h1
    subst h1
    simp [NAryTree.numberOfNodes]
  · decide
  · decide
  · simp [NAryTree.numberOfNodes]

/-- Witness for C2 at `N = 2, D = 3`. -/
theorem totalNamespaces_closed_form_witness : NAryTree.numberOfNodes 2 3 = 7 :=
  (totalNamespaces_closed_form 2 3 (by decide) (by decide)).2.2.1

/-- Modelled from the spec: `dp.numTables` comes from `DatasetParameters`
(the `parameters` package is not in the source tree). Per §4.1,
`totalTables = min(N^(D-1) * T, maxTables if capped else ∞)` with the
sentinel `maxTables = -1` meaning uncapped. -/
def numTables (n d t : Nat) (maxTables : Int) : Nat :=
  if maxTables = -1 then n ^ (d - 1) * t
  else min (n ^ (d - 1) * t) maxTables.toNat

/-- Modelled from the spec: `dp.numViews`, identical to `numTables` with
`V` and `maxViews`. -/
def numViews (n d v : Nat) (maxViews : Int) : Nat :=
  if maxViews = -1 then n ^ (d - 1) * v
  else min (n ^ (d - 1) * v) maxViews.toNat

/-- C3: totalTables is `N^(D-1) * T` when `maxTables` is the uncapped
sentinel -1 and `min(N^(D-1) * T, maxTables)` otherwise, never exceeding
`N^(D-1) * T`; `N=2, D=4, T=5, maxTables=10` gives 10, not the uncapped
40. The same holds for totalViews with `V` and `maxViews`. -/
theorem totalTables_totalViews_cap (N D T V : Nat) (m mv : Int) :
    (m = -1 → numTables N D T m = N ^ (D - 1) * T) ∧
    (0 ≤ m → (numTables N D T m : Int) = min ((N ^ (D - 1) * T : Nat) : Int) m) ∧
    numTables N D T m ≤ N ^ (D - 1) * T ∧
    numTables 2 4 5 10 = 10 ∧ (2 : Nat) ^ (4 - 1) * 5 = 40 ∧ numTables 2 4 5 10 ≠ 40 ∧
    (mv = -1 → numViews N D V mv = N ^ (D - 1) * V) ∧
    (0 ≤ mv → (numViews N D V mv : Int) = min ((N ^ (D - 1) * V : Nat) : Int) mv) ∧
    numViews N D V mv ≤ N ^ (D - 1) * V := by
  refine ⟨?_, ?_, ?_, by decide, by decide, by decide, ?_, ?_, ?_⟩
  · intro hm
    rw [numTables, if_pos hm]
  · intro hm
    have hne : m ≠ -1 := by omega
    rw [numTables, if_neg hne, Nat.cast_min, Int.toNat_of_nonneg hm]
  · rw [numTables]
    split_ifs
    · exact Nat.le_refl _
    · exact Nat.min_le_left _ _
  · intro hm
    rw [numViews, if_pos hm]
  · intro hm
    have hne : mv ≠ -1 := by omega
    rw [numViews, if_neg hne, Nat.cast_min, Int.toNat_of_nonneg hm]
  · rw [numViews]
    split_ifs
    · exact Nat.le_refl _
    · exact Nat.min_le_left _ _

/-- Witness for C3 at the uncapped sentinel. -/
theorem totalTables_totalViews_cap_witness : numTables 2 4 5 (-1) = 2 ^ (4 - 1) * 5 :=
  (totalTables_totalViews_cap 2 4 5 5 (-1) (-1)).1 rfl

/-! ## Phase pipeline (`ReadTreeDataset.setUp`).

The simulation chains its scenarios with Gatling's `andThen`. The chain
structure below is embedded from the source; the sequencing *semantics*
of `andThen` (the engine is an external library) is modelled from the
spec: "phases run strictly in declared order — a phase does not start
until its predecessor has either hit its target count or been
aborted". -/

/-- The scenarios chained in `ReadTreeDataset.setUp`. -/
inductive ReadTreePhase : Type
  | waitForAuthentication
  | verifyCatalogs
  | verifyNamespaces
  | verifyTables
  | verifyViews
  | stopRefreshingToken
deriving DecidableEq, Repr

/-- A chained population: the phases it runs, in declared order. -/
structure PopulationBuilder where
  phases : List ReadTreePhase
deriving DecidableEq, Repr

/-- Modelled from the spec: Gatling's `andThen` sequencing — the
follower's phases run only after all of this builder's phases have
completed or aborted, so chaining appends them in declared order. -/
def PopulationBuilder.andThen (p q : PopulationBuilder) : PopulationBuilder :=
  { phases := p.phases ++ q.phases }

/-- A single injected scenario. -/
def injectPhase (p : ReadTreePhase) : PopulationBuilder := { phases := [p] }

/-- Embedding of the `setUp` chain of `ReadTreeDataset` (the token-refresh
background population is injected separately and is not part of the
chain): wait for authentication, then verify catalogs, namespaces,
tables, views, then stop refreshing the token. -/
def readTreeSetUp : PopulationBuilder :=
  (((((injectPhase ReadTreePhase.waitForAuthentication).andThen
    (injectPhase ReadTreePhase.verifyCatalogs)).andThen
    (injectPhase ReadTreePhase.verifyNamespaces)).andThen
    (injectPhase ReadTreePhase.verifyTables)).andThen
    (injectPhase ReadTreePhase.verifyViews)).andThen
    (injectPhase ReadTreePhase.stopRefreshingToken)

/-- An observable event of a pipeline run: a worker action of a phase, or
the phase's completion (target count reached or aborted). -/
inductive PhaseEvent : Type
  | action (p : ReadTreePhase)
  | done (p : ReadTreePhase)
deriving DecidableEq, Repr

/-- The events of one phase: its actions followed by its completion. -/
def phaseSegment (p : ReadTreePhase) (a : Nat) : List PhaseEvent :=
  List.replicate a (PhaseEvent.action p) ++ [PhaseEvent.done p]

/-- Modelled from the spec: the linearized event trace of a sequenced
pipeline — each phase's events run only after the previous phase's
completion event, so the trace is the concatenation of the per-phase
segments in declared order (`acts p` is how many actions phase `p`
issues before completing or aborting). -/
def pipelineTrace (ps : List ReadTreePhase) (acts : ReadTreePhase → Nat) : List PhaseEvent :=
  ps.flatMap (fun p => phaseSegment p (acts p))

theorem mem_phaseSegment (e : PhaseEvent) (p : ReadTreePhase) (a : Nat)
    (h : e ∈ phaseSegment p a) : e = PhaseEvent.action p ∨ e = PhaseEvent.done p := by
  rw [phaseSegment] at h
  rcases List.mem_append.mp h with h | h
  · exact Or.inl (List.eq_of_mem_replicate h)
  · simp only [List.mem_singleton] at h
    exact Or.inr h

theorem pipelineTrace_action_after_done (l1 l2 : List ReadTreePhase) (A B : ReadTreePhase)
    (acts : ReadTreePhase → Nat) (hA : A ≠ B) (hB : B ∉ l1) (j : Nat)
    (hj : (pipelineTrace (l1 ++ A :: B :: l2) acts).get? j = some (PhaseEvent.action B)) :
    ∃ jA, jA < j ∧
      (pipelineTrace (l1 ++ A :: B :: l2) acts).get? jA = some (PhaseEvent.done A) := by
  have hT : pipelineTrace (l1 ++ A :: B :: l2) acts =
      (pipelineTrace l1 acts ++ phaseSegment A (acts A)) ++ pipelineTrace (B :: l2) acts := by
    simp [pipelineTrace, List.flatMap_append, List.flatMap_cons, List.append_assoc]
  have hmem : ∀ e ∈ pipelineTrace l1 acts ++ phaseSegment A (acts A),
      e ≠ PhaseEvent.action B := by
    intro e he heq
    rcases List.mem_append.mp he with h | h
    · rw [pipelineTrace, List.mem_flatMap] at h
      obtain ⟨p, hp, hseg⟩ := h
      rcases mem_phaseSegment e p (acts p) hseg with h2 | h2 <;> rw [heq] at h2
      · cases h2
        exact hB hp
      · cases h2
    · rcases mem_phaseSegment e A (acts A) h with h2 | h2 <;> rw [heq] at h2
      · cases h2
        exact hA rfl
      · cases h2
  have hfl : (pipelineTrace l1 acts ++ phaseSegment A (acts A)).length =
      (pipelineTrace l1 acts).length + (acts A + 1) := by
    simp [phaseSegment]
  have hjge : (pipelineTrace l1 acts ++ phaseSegment A (acts A)).length ≤ j := by
    by_contra hcon
    push_neg at hcon
    rw [hT, List.get?_append hcon] at hj
    exact hmem _ (List.get?_mem hj) rfl
  refine ⟨(pipelineTrace l1 acts).length + acts A, by omega, ?_⟩
  have hseg : (phaseSegment A (acts A)).get? (acts A) = some (PhaseEvent.done A) := by
    rw [phaseSegment, List.get?_append_right (by simp)]
    simp
  rw [hT, List.get?_append (by omega), List.get?_append_right (Nat.le_add_right _ _),
    Nat.add_sub_cancel_left]
  exact hseg

/-- C5: phases execute strictly in declared order — for consecutive
phases A, B of the `setUp` chain, no worker of B issues any action before
A's completion event (target reached or aborted) has occurred — and the
declared order is wait for authentication, verify catalogs, namespaces,
tables, views, then stop the token refresh. -/
theorem readTree_phase_sequencing (acts : ReadTreePhase → Nat) (i j : Nat)
    (hij : i + 1 < readTreeSetUp.phases.length)
    (hj : (pipelineTrace readTreeSetUp.phases acts).get? j =
      some (PhaseEvent.action
        (readTreeSetUp.phases.getD (i + 1) ReadTreePhase.waitForAuthentication))) :
    readTreeSetUp.phases = [ReadTreePhase.waitForAuthentication,
      ReadTreePhase.verifyCatalogs, ReadTreePhase.verifyNamespaces,
      ReadTreePhase.verifyTables, ReadTreePhase.verifyViews,
      ReadTreePhase.stopRefreshingToken] ∧
    ∃ jA, jA < j ∧ (pipelineTrace readTreeSetUp.phases acts).get? jA =
      some (PhaseEvent.done (readTreeSetUp.phases.getD i ReadTreePhase.waitForAuthentication)) := by
  refine ⟨rfl, ?_⟩
  have hi5 : i < 5 := by
    have h6 : readTreeSetUp.phases.length = 6 := rfl
    omega
  interval_cases i
  · exact pipelineTrace_action_after_done []
      [ReadTreePhase.verifyNamespaces, ReadTreePhase.verifyTables,
        ReadTreePhase.verifyViews, ReadTreePhase.stopRefreshingToken]
      ReadTreePhase.waitForAuthentication ReadTreePhase.verifyCatalogs
      acts (by decide) (by decide) j hj
  · exact pipelineTrace_action_after_done [ReadTreePhase.waitForAuthentication]
      [ReadTreePhase.verifyTables, ReadTreePhase.verifyViews, ReadTreePhase.stopRefreshingToken]
      ReadTreePhase.verifyCatalogs ReadTreePhase.verifyNamespaces
      acts (by decide) (by decide) j hj
  · exact pipelineTrace_action_after_done
      [ReadTreePhase.waitForAuthentication, ReadTreePhase.verifyCatalogs]
      [ReadTreePhase.verifyViews, ReadTreePhase.stopRefreshingToken]
      ReadTreePhase.verifyNamespaces ReadTreePhase.verifyTables
      acts (by decide) (by decide) j hj
  · exact pipelineTrace_action_after_done
      [ReadTreePhase.waitForAuthentication, ReadTreePhase.verifyCatalogs,
        ReadTreePhase.verifyNamespaces]
      [ReadTreePhase.stopRefreshingToken]
      ReadTreePhase.verifyTables ReadTreePhase.verifyViews
      acts (by decide) (by decide) j hj
  · exact pipelineTrace_action_after_done
      [ReadTreePhase.waitForAuthentication, ReadTreePhase.verifyCatalogs,
        ReadTreePhase.verifyNamespaces, ReadTreePhase.verifyTables]
      []
      ReadTreePhase.verifyViews ReadTreePhase.stopRefreshingToken
      acts (by decide) (by decide) j hj

/-- Witness for C5: with one action per phase, the first `verifyCatalogs`
action sits at trace index 2, after `waitForAuthentication` completed at
index 1. -/
theorem readTree_phase_sequencing_witness :
    ∃ jA, jA < 2 ∧ (pipelineTrace readTreeSetUp.phases (fun _ => 1)).get? jA =
      some (PhaseEvent.done ReadTreePhase.waitForAuthentication) :=
  (readTree_phase_sequencing (fun _ => 1) 0 2 (by decide) (by decide)).2

/-! ## Views API client (console, `src/unnamed/part_000`) -/

/-- Embedding of `encodeNamespace`: namespace parts joined by the unit
separator character U+001F (`namespace.join("\x1F")`). -/
def encodeNamespace (ns : List String) : String := String.intercalate "\x1F" ns

/-- ECMAScript `encodeURIComponent` keep-set: ASCII letters, digits, and
the marks `- _ . ! ~ * ' ( )`; every other character is percent-encoded. -/
def isUriUnescaped (c : Char) : Bool :=
  (65 ≤ c.toNat && c.toNat ≤ 90) || (97 ≤ c.toNat && c.toNat ≤ 122) ||
    (48 ≤ c.toNat && c.toNat ≤ 57) ||
    c.toNat == 45 || c.toNat == 95 || c.toNat == 46 || c.toNat == 33 ||
    c.toNat == 126 || c.toNat == 42 || c.toNat == 39 || c.toNat == 40 || c.toNat == 41

/-- Uppercase hexadecimal digit characters, as used by percent-encoding. -/
def hexUpperDigits : List Char := "0123456789ABCDEF".toList

/-- The `k`-th uppercase hexadecimal digit. -/
def hexUpperChar (k : Nat) : Char := hexUpperDigits.getD k '0'

/-- Percent-encodes one character: each of its UTF-8 bytes as `%XX`. -/
def pctEncodeChar (c : Char) : List Char :=
  (utf8Encode c.toNat).flatMap
    (fun b => ['%', hexUpperChar (b / 16 % 16), hexUpperChar (b % 16)])

/-- Model of ECMAScript `encodeURIComponent`, applied by the client to
every path segment it builds. -/
def encodeURIComponent (s : String) : String :=
  String.mk (s.data.flatMap (fun c => if isUriUnescaped c then [c] else pctEncodeChar c))

/-- Embedding of the GET path of `viewsApi.list`. -/
def viewsListUrl (pfx : String) (ns : List String) : String :=
  "/" ++ encodeURIComponent pfx ++ "/namespaces/" ++
    encodeURIComponent (encodeNamespace ns) ++ "/views"

/-- Embedding of the GET path of `viewsApi.get`. -/
def viewsGetUrl (pfx : String) (ns : List String) (viewName : String) : String :=
  "/" ++ encodeURIComponent pfx ++ "/namespaces/" ++
    encodeURIComponent (encodeNamespace ns) ++ "/views/" ++ encodeURIComponent viewName

/-- Embedding of the DELETE path of `viewsApi.delete`. -/
def viewsDeleteUrl (pfx : String) (ns : List String) (viewName : String) : String :=
  "/" ++ encodeURIComponent pfx ++ "/namespaces/" ++
    encodeURIComponent (encodeNamespace ns) ++ "/views/" ++ encodeURIComponent viewName

/-- Embedding of the POST path of `viewsApi.create`. -/
def viewsCreateUrl (pfx : String) (ns : List String) : String :=
  "/" ++ encodeURIComponent pfx ++ "/namespaces/" ++
    encodeURIComponent (encodeNamespace ns) ++ "/views"

theorem hexUpperChar_ne_slash (k : Nat) (hk : k < 16) : hexUpperChar k ≠ '/' := by
  interval_cases k <;> decide

theorem encodeURIComponent_no_slash (s : String) (c : Char)
    (hc : c ∈ (encodeURIComponent s).data) : c ≠ '/' := by
  rw [show (encodeURIComponent s).data =
      s.data.flatMap (fun ch => if isUriUnescaped ch then [ch] else pctEncodeChar ch)
    from rfl, List.mem_flatMap] at hc
  obtain ⟨ch, -, h⟩ := hc
  by_cases hu : isUriUnescaped ch
  · rw [if_pos hu] at h
    simp only [List.mem_singleton] at h
    subst h
    intro heq
    rw [heq] at hu
    exact absurd hu (by decide)
  · rw [if_neg hu, pctEncodeChar, List.mem_flatMap] at h
    obtain ⟨b, -, hb⟩ := h
    simp only [List.mem_cons, List.not_mem_nil, or_false] at hb
    rcases hb with h2 | h2 | h2
    · subst h2
      decide
    · subst h2
      exact hexUpperChar_ne_slash _ (Nat.mod_lt _ (by omega))
    · subst h2
      exact hexUpperChar_ne_slash _ (Nat.mod_lt _ (by omega))

/-- C9: every view operation's URL carries the namespace as the
percent-encoding of the parts joined by the unit separator U+001F; the
encoding expression is identical across list, get, delete and create,
and the resulting segment never contains `/`, so a multi-part namespace
is always transmitted as one path segment. -/
theorem views_namespace_single_segment (pfx viewName : String) (ns : List String) :
    viewsListUrl pfx ns =
      "/" ++ encodeURIComponent pfx ++ "/namespaces/" ++
        encodeURIComponent (encodeNamespace ns) ++ "/views" ∧
    viewsGetUrl pfx ns viewName =
      "/" ++ encodeURIComponent pfx ++ "/namespaces/" ++
        encodeURIComponent (encodeNamespace ns) ++ "/views/" ++ encodeURIComponent viewName ∧
    viewsDeleteUrl pfx ns viewName = viewsGetUrl pfx ns viewName ∧
    viewsCreateUrl pfx ns = viewsListUrl pfx ns ∧
    (∀ c ∈ (encodeURIComponent (encodeNamespace ns)).data, c ≠ '/') ∧
    encodeURIComponent (encodeNamespace ["accounting", "tax"]) = "accounting%1Ftax" :=
  ⟨rfl, rfl, rfl, rfl, fun c hc => encodeURIComponent_no_slash _ c hc, by decide⟩

/-! ## Table details query (console, `src/unnamed/part_001`) -/

/-- Embedding of the `tableQuery` fetch logic of the table-details page:
try the Iceberg table fetch; if it throws, try the generic-table fetch;
if that also throws, rethrow the original Iceberg error. -/
def tableQueryFn {ε α β : Type} (ice : Except ε α) (gen : Except ε β) : Except ε (α ⊕ β) :=
  match ice with
  | Except.ok a => Except.ok (Sum.inl a)
  | Except.error icebergError =>
    match gen with
    | Except.ok b => Except.ok (Sum.inr b)
    | Except.error _ => Except.error icebergError

/-- C10: the Iceberg fetch is decisive when it succeeds (the result does
not depend on the generic fetch at all), the generic fetch is used only
when the Iceberg fetch throws, and when both fail the surfaced error is
the original Iceberg error, never the generic-table error. -/
theorem table_details_iceberg_error_precedence {ε α β : Type}
    (e e2 : ε) (a : α) (b : β) (gen gen2 : Except ε β) :
    tableQueryFn (Except.ok a) gen = Except.ok (Sum.inl a) ∧
    tableQueryFn (Except.ok a) gen = tableQueryFn (Except.ok a) gen2 ∧
    tableQueryFn (Except.error e : Except ε α) (Except.ok b : Except ε β) =
      Except.ok (Sum.inr b) ∧
    tableQueryFn (Except.error e : Except ε α) (Except.error e2 : Except ε β) =
      Except.error e :=
  ⟨rfl, rfl, rfl, rfl⟩
